import Mathlib

/-!
# Verification of the smooth-bevy-cameras camera-control library

A shallow embedding of the numerically interesting fragment of the
repository: the exponential pose smoother, the yaw/pitch `LookAngles`
representation with gimbal-lock avoidance, and the FPS controller systems
`default_input_map` and `control_system` from `src/controllers/fps.rs`.

Machine `f32` scalars are modelled as real numbers; vector types `Vec2` and
`Vec3` are componentwise records of reals.  The crate-root definitions
(`LookTransform`, `Smoother`, `LookAngles`) are not present under `src/`
(only the FPS controller that calls them is), so they are modelled from the
specification; each such definition carries a doc comment saying so.
-/

open Real

/-- A 2-component real vector, modelling glam `Vec2`. -/
structure Vec2 where
  x : ℝ
  y : ℝ

/-- A 3-component real vector, modelling glam `Vec3`. -/
structure Vec3 where
  x : ℝ
  y : ℝ
  z : ℝ

namespace Vec2

theorem mk_eq_iff {a b : Vec2} : a = b ↔ a.x = b.x ∧ a.y = b.y := by
  constructor
  · rintro rfl; exact ⟨rfl, rfl⟩
  · rcases a with ⟨ax, ay⟩; rcases b with ⟨bx, by_⟩
    rintro ⟨h1, h2⟩; cases h1; cases h2; rfl

/-- Componentwise addition (glam `Vec2` `+`). -/
instance : Add Vec2 := ⟨fun a b => ⟨a.x + b.x, a.y + b.y⟩⟩

/-- Componentwise multiplication (glam `Vec2` `*`). -/
instance : Mul Vec2 := ⟨fun a b => ⟨a.x * b.x, a.y * b.y⟩⟩

/-- The zero vector (glam `Vec2::ZERO`). -/
instance : Zero Vec2 := ⟨⟨0, 0⟩⟩

theorem add_mk (a b : Vec2) : a + b = ⟨a.x + b.x, a.y + b.y⟩ := rfl

theorem mul_mk (a b : Vec2) : a * b = ⟨a.x * b.x, a.y * b.y⟩ := rfl

theorem zero_mk : (0 : Vec2) = ⟨0, 0⟩ := rfl

end Vec2

namespace Vec3

theorem ext_iff {a b : Vec3} : a = b ↔ a.x = b.x ∧ a.y = b.y ∧ a.z = b.z := by
  constructor
  · rintro rfl; exact ⟨rfl, rfl, rfl⟩
  · rcases a with ⟨ax, ay, az⟩; rcases b with ⟨bx, by_, bz⟩
    rintro ⟨h1, h2, h3⟩; cases h1; cases h2; cases h3; rfl

/-- Componentwise addition (glam `Vec3` `+`). -/
instance : Add Vec3 := ⟨fun a b => ⟨a.x + b.x, a.y + b.y, a.z + b.z⟩⟩

/-- Componentwise subtraction (glam `Vec3` `-`). -/
instance : Sub Vec3 := ⟨fun a b => ⟨a.x - b.x, a.y - b.y, a.z - b.z⟩⟩

/-- Componentwise negation (glam `Vec3` unary `-`). -/
instance : Neg Vec3 := ⟨fun a => ⟨-a.x, -a.y, -a.z⟩⟩

/-- Scalar multiplication (glam `f32 * Vec3`). -/
instance : SMul ℝ Vec3 := ⟨fun c a => ⟨c * a.x, c * a.y, c * a.z⟩⟩

theorem add_def (a b : Vec3) : a + b = ⟨a.x + b.x, a.y + b.y, a.z + b.z⟩ := rfl

theorem sub_def (a b : Vec3) : a - b = ⟨a.x - b.x, a.y - b.y, a.z - b.z⟩ := rfl

theorem neg_def (a : Vec3) : -a = ⟨-a.x, -a.y, -a.z⟩ := rfl

theorem smul_def (c : ℝ) (a : Vec3) : c • a = ⟨c * a.x, c * a.y, c * a.z⟩ := rfl

/-- Euclidean length of a `Vec3` (glam `Vec3::length`). -/
noncomputable def length (a : Vec3) : ℝ :=
  Real.sqrt (a.x ^ 2 + a.y ^ 2 + a.z ^ 2)

/-- The `X` unit vector (glam `Vec3::X`). -/
def unitX : Vec3 := ⟨1, 0, 0⟩

/-- The `Y` unit vector (glam `Vec3::Y`). -/
def unitY : Vec3 := ⟨0, 1, 0⟩

/-- The `Z` unit vector (glam `Vec3::Z`). -/
def unitZ : Vec3 := ⟨0, 0, 1⟩

/-- Equality of real-component vectors is classical. -/
noncomputable instance : DecidableEq Vec3 := fun _ _ => Classical.dec _

end Vec3

/-- Modelled from the spec: the camera pose (`LookTransform` in the crate
root, which is absent from `src/`): eye position, look-at target and up
vector; invariant `eye ≠ target`. -/
structure LookTransform where
  eye : Vec3
  target : Vec3
  up : Vec3

namespace LookTransform

theorem eq_iff {a b : LookTransform} :
    a = b ↔ a.eye = b.eye ∧ a.target = b.target ∧ a.up = b.up := by
  constructor
  · rintro rfl; exact ⟨rfl, rfl, rfl⟩
  · rcases a with ⟨ae, at_, au⟩; rcases b with ⟨be, bt, bu⟩
    rintro ⟨h1, h2, h3⟩; cases h1; cases h2; cases h3; rfl

/-- Modelled from the spec: the derived quantity `radius = |target - eye|`. -/
noncomputable def radius (t : LookTransform) : ℝ :=
  (t.target - t.eye).length

/-- Modelled from the spec: the viewing direction, defined exactly when
`eye ≠ target` (the crate's `look_direction` returns `Option<Vec3>`,
`None` when the direction cannot be normalized). -/
noncomputable def look_direction (t : LookTransform) : Option Vec3 :=
  if t.target = t.eye then none
  else some ((t.target - t.eye).length⁻¹ • (t.target - t.eye))

end LookTransform

/-- Linear interpolation of scalars: move from `a` toward `b` by fraction `t`. -/
def lerpS (t a b : ℝ) : ℝ := a + t * (b - a)

/-- Componentwise linear interpolation of `Vec3` by fraction `t`. -/
def lerpV (t : ℝ) (a b : Vec3) : Vec3 :=
  ⟨lerpS t a.x b.x, lerpS t a.y b.y, lerpS t a.z b.z⟩

/-- Modelled from the spec: the `Smoother` state (absent from `src/`):
a smoothing weight in `[0, 1)` and the lag pose, `none` until the first
update. -/
structure Smoother where
  weight : ℝ
  lag_pose : Option LookTransform

namespace Smoother

/-- Modelled from the spec: `Smoother::new(weight)`. -/
def new (w : ℝ) : Smoother := ⟨w, none⟩

/-- Modelled from the spec: `Smoother::update(weight_override, raw_pose,
dt_seconds)` (absent from `src/`).  On the first call (no lag pose) the
raw pose is returned exactly and stored.  On subsequent calls the
effective weight `w` is the per-call override if supplied, else the stored
default; the interpolation factor is `t = 1 - w ^ dt`, eye and target are
lerped from the lag pose toward the raw pose by `t`, and the raw up vector
is carried through unchanged (the spec allows either convention for up;
this development fixes the pass-through one).  The returned pose becomes
the new lag pose. -/
noncomputable def update (s : Smoother) (weightOverride : Option ℝ)
    (raw : LookTransform) (dt : ℝ) : LookTransform × Smoother :=
  match s.lag_pose with
  | none => (raw, ⟨s.weight, some raw⟩)
  | some lag =>
    let w := weightOverride.getD s.weight
    let t := 1 - w ^ dt
    let out : LookTransform :=
      ⟨lerpV t lag.eye raw.eye, lerpV t lag.target raw.target, raw.up⟩
    (out, ⟨s.weight, some out⟩)

end Smoother

/-- Modelled from the spec: the epsilon margin kept between the pitch clamp
and the true pole (the spec suggests on the order of `1e-2` rad). -/
noncomputable def epsMargin : ℝ := 1 / 100

/-- Modelled from the spec: the largest magnitude the pitch may take,
an `epsMargin` below the pole `π/2`. -/
noncomputable def pitchBound : ℝ := π / 2 - epsMargin

/-- Modelled from the spec: the tiny epsilon of the defensive
`assert_not_looking_up` check, strictly smaller than the clamp margin. -/
noncomputable def assertEps : ℝ := 1 / 100000

/-- Two-argument arctangent: the angle of the point `(x, y)` in `(-π, π]`,
realised as the complex argument. -/
noncomputable def atan2 (y x : ℝ) : ℝ := Complex.arg ⟨x, y⟩

/-- Modelled from the spec: clamp a pitch value into
`[-pitchBound, pitchBound]`, saturating at the margin below the pole. -/
noncomputable def clampPitch (p : ℝ) : ℝ := min pitchBound (max (-pitchBound) p)

/-- Modelled from the spec: the `LookAngles` pair (absent from `src/`):
yaw in radians, wrapped on construction, and pitch clamped strictly inside
`(-π/2, π/2)`. -/
structure LookAngles where
  yaw : ℝ
  pitch : ℝ

namespace LookAngles

/-- Modelled from the spec: `LookAngles::from_vector(direction)` computes
`pitch = asin(direction.y / |direction|)` clamped away from the poles, and
`yaw = atan2(-direction.x, -direction.z)` (yaw `0` looks along `-Z`; the
`atan2` result already lies in the wrap range `(-π, π]`). -/
noncomputable def from_vector (v : Vec3) : LookAngles :=
  ⟨atan2 (-v.x) (-v.z), clampPitch (Real.arcsin (v.y / v.length))⟩

/-- Modelled from the spec: `get_yaw`. -/
def get_yaw (a : LookAngles) : ℝ := a.yaw

/-- Modelled from the spec: `get_pitch`. -/
def get_pitch (a : LookAngles) : ℝ := a.pitch

/-- Modelled from the spec: `unit_vector()`, the inverse of `from_vector`:
the unit direction with the current yaw and pitch, with yaw `0` along `-Z`. -/
noncomputable def unit_vector (a : LookAngles) : Vec3 :=
  ⟨-(Real.sin a.yaw * Real.cos a.pitch),
    Real.sin a.pitch,
    -(Real.cos a.yaw * Real.cos a.pitch)⟩

/-- Modelled from the spec: `add_yaw(delta)`; yaw wraps modulo `2π`. -/
noncomputable def add_yaw (a : LookAngles) (delta : ℝ) : LookAngles :=
  ⟨a.yaw + delta - 2 * π * ⌊(a.yaw + delta) / (2 * π)⌋, a.pitch⟩

/-- Modelled from the spec: `add_pitch(delta)`; the new pitch saturates at
`epsMargin` below the pole instead of crossing it. -/
noncomputable def add_pitch (a : LookAngles) (delta : ℝ) : LookAngles :=
  ⟨a.yaw, clampPitch (a.pitch + delta)⟩

/-- Modelled from the spec: the condition checked by
`assert_not_looking_up()` — the check passes exactly when the pitch is
farther than `assertEps` from the poles `±π/2`. -/
noncomputable def not_looking_up (a : LookAngles) : Prop :=
  |a.pitch| < π / 2 - assertEps

/-- The assertion condition is classically decidable. -/
noncomputable instance (a : LookAngles) : Decidable a.not_looking_up :=
  Classical.dec _

end LookAngles

/-- The cursor toggle mode of the FPS camera (`CursorToggleMode` in
`src/controllers/fps.rs`). -/
inductive CursorToggleMode where
  | trigger
  | flip
  deriving DecidableEq

/-- The host window's cursor grab mode (`bevy::window::CursorGrabMode`);
`noGrab` stands for the host's `None` variant. -/
inductive CursorGrabMode where
  | noGrab
  | confined
  | locked
  deriving DecidableEq

/-- The keys read by `default_input_map` in `src/controllers/fps.rs`. -/
inductive KeyCode where
  | keyW
  | keyA
  | keyS
  | keyD
  | shiftLeft
  | space
  deriving DecidableEq

/-- `FpsCameraController` from `src/controllers/fps.rs`. -/
structure FpsCameraController where
  enabled : Bool
  mouse_rotate_sensitivity : Vec2
  translate_sensitivity : ℝ
  smoothing_weight : ℝ
  auto_hide_cursor : Bool
  cursor_toggle_mode : CursorToggleMode

/-- The default `FpsCameraController` from `src/controllers/fps.rs`. -/
noncomputable def FpsCameraController.default : FpsCameraController :=
  ⟨true, ⟨1 / 5, 1 / 5⟩, 2, 9 / 10, true, CursorToggleMode.trigger⟩

/-- `ControlMessage` from `src/controllers/fps.rs`. -/
inductive ControlMessage where
  | Rotate (delta : Vec2)
  | TranslateEye (delta : Vec3)

/-- The key/direction table iterated by `default_input_map` in
`src/controllers/fps.rs` (W, A, S, D, left shift, space). -/
def keyDirs : List (KeyCode × Vec3) :=
  [(KeyCode.keyW, Vec3.unitZ), (KeyCode.keyA, Vec3.unitX),
   (KeyCode.keyS, -Vec3.unitZ), (KeyCode.keyD, -Vec3.unitX),
   (KeyCode.shiftLeft, -Vec3.unitY), (KeyCode.space, Vec3.unitY)]

/-- `default_input_map` from `src/controllers/fps.rs`: pick the first
enabled controller (early-return if none), accumulate the mouse-motion
deltas only while the cursor grab mode is `Locked`, emit one `Rotate`
message scaled by the mouse sensitivity, then one `TranslateEye` message
per pressed movement key scaled by the translate sensitivity. -/
def default_input_map (controllers : List FpsCameraController)
    (grabMode : CursorGrabMode) (mouseMotions : List Vec2)
    (pressed : KeyCode → Bool) : List ControlMessage :=
  match controllers.find? (fun c => c.enabled) with
  | none => []
  | some c =>
    let cursorDelta : Vec2 :=
      if grabMode = CursorGrabMode.locked then
        mouseMotions.foldl (fun acc d => acc + d) 0
      else 0
    ControlMessage.Rotate (c.mouse_rotate_sensitivity * cursorDelta) ::
      keyDirs.filterMap fun kd =>
        if pressed kd.1 then
          some (ControlMessage.TranslateEye (c.translate_sensitivity • kd.2))
        else none

/-- Rotation of a vector about the `Y` axis by angle `θ`, modelling
`Quat::from_axis_angle(Vec3::Y, θ) * v` in `control_system`. -/
noncomputable def rotY (θ : ℝ) (v : Vec3) : Vec3 :=
  ⟨v.x * Real.cos θ + v.z * Real.sin θ, v.y,
    -v.x * Real.sin θ + v.z * Real.cos θ⟩

/-- One message of the event loop of `control_system`
(`src/controllers/fps.rs` lines 262–274): a `Rotate` message applies
`add_yaw (dt * -delta.x)` then `add_pitch (dt * -delta.y)` to the look
angles; a `TranslateEye` message moves the eye along the yaw-rotated
basis vectors scaled by `dt`. -/
noncomputable def controlStep (dt : ℝ) (rx ry rz : Vec3)
    (s : Vec3 × LookAngles) (m : ControlMessage) : Vec3 × LookAngles :=
  match m with
  | ControlMessage.Rotate delta =>
      (s.1, (s.2.add_yaw (dt * -delta.x)).add_pitch (dt * -delta.y))
  | ControlMessage.TranslateEye delta =>
      (s.1 + (dt * delta.x) • rx + (dt * delta.y) • ry + (dt * delta.z) • rz,
        s.2)

/-- The eye/look-angles state of `control_system` after its message loop
(`src/controllers/fps.rs` lines 253–274): the look angles are rebuilt by
`from_vector` from the look direction `lv`, the translation basis is the
yaw-rotated `X`/`Y`/`Z`, and every queued message is folded in. -/
noncomputable def controlState (dt : ℝ) (msgs : List ControlMessage)
    (eye0 : Vec3) (lv : Vec3) : Vec3 × LookAngles :=
  let a0 := LookAngles.from_vector lv
  msgs.foldl
    (controlStep dt (rotY a0.get_yaw Vec3.unitX) (rotY a0.get_yaw Vec3.unitY)
      (rotY a0.get_yaw Vec3.unitZ))
    (eye0, a0)

/-- The per-camera body of `control_system` (`src/controllers/fps.rs`
lines 253–278): rebuild the look angles from the current look direction
(the `unwrap` panics — modelled as `none` — when the direction is
undefined), process all queued messages, run the
`assert_not_looking_up` check (fatal — modelled as `none` — on failure),
then re-place the target at distance `radius()` from the (possibly
translated) eye along the new look direction.  The cursor-option
handling of lines 217–251 touches no `LookTransform` and is outside the
modelled fragment. -/
noncomputable def controlBody (dt : ℝ) (msgs : List ControlMessage)
    (t : LookTransform) : Option LookTransform :=
  match t.look_direction with
  | none => none
  | some lookVector =>
    let st := controlState dt msgs t.eye lookVector
    if st.2.not_looking_up then
      some ⟨st.1,
        st.1 + LookTransform.radius ⟨st.1, t.target, t.up⟩ • st.2.unit_vector,
        t.up⟩
    else none

/-- `control_system` from `src/controllers/fps.rs` over the camera query:
the first camera whose controller is enabled is updated by `controlBody`
(its `LookTransform` alone is mutated); with no enabled camera the system
returns early, leaving every `LookTransform` unchanged. -/
noncomputable def control_system (dt : ℝ) (msgs : List ControlMessage) :
    List (FpsCameraController × LookTransform) →
      Option (List (FpsCameraController × LookTransform))
  | [] => some []
  | (c, t) :: rest =>
    if c.enabled then
      (controlBody dt msgs t).map fun t2 => (c, t2) :: rest
    else
      (control_system dt msgs rest).map fun rest2 => (c, t) :: rest2

/-- Componentwise (L1) distance between two `Vec3` values. -/
def vDist (a b : Vec3) : ℝ := |a.x - b.x| + |a.y - b.y| + |a.z - b.z|

/-- Distance between the eye/target parts of two poses. -/
def etDist (p q : LookTransform) : ℝ :=
  vDist p.eye q.eye + vDist p.target q.target

/-- Distance between two poses: the sum of the componentwise distances of
eye, target and up. -/
def poseDist (p q : LookTransform) : ℝ :=
  etDist p q + vDist p.up q.up

/-- The smoother state after `n` calls of `update` with constant raw pose
`P` and time step `dt`, starting from stored weight `w` and lag pose `L`. -/
noncomputable def smootherRun (w dt : ℝ) (L P : LookTransform) : ℕ → Smoother
  | 0 => ⟨w, some L⟩
  | n + 1 => (Smoother.update (smootherRun w dt L P n) none P dt).2

/-- The pose returned by call `n + 1` of the constant-input iteration. -/
noncomputable def smootherOut (w dt : ℝ) (L P : LookTransform) (n : ℕ) :
    LookTransform :=
  (Smoother.update (smootherRun w dt L P n) none P dt).1

theorem vDist_self (a : Vec3) : vDist a a = 0 := by
  simp [vDist]

theorem update_weight (s : Smoother) (ov : Option ℝ) (raw : LookTransform)
    (dt : ℝ) : (Smoother.update s ov raw dt).2.weight = s.weight := by
  obtain ⟨w0, lag⟩ := s
  cases lag <;> rfl

theorem update_lag (s : Smoother) (ov : Option ℝ) (raw : LookTransform)
    (dt : ℝ) :
    (Smoother.update s ov raw dt).2.lag_pose =
      some (Smoother.update s ov raw dt).1 := by
  obtain ⟨w0, lag⟩ := s
  cases lag <;> rfl

theorem smootherRun_weight (w dt : ℝ) (L P : LookTransform) (n : ℕ) :
    (smootherRun w dt L P n).weight = w := by
  induction n with
  | zero => rfl
  | succ n ih => rw [smootherRun, update_weight, ih]

theorem smootherRun_lag (w dt : ℝ) (L P : LookTransform) (n : ℕ) :
    (smootherRun w dt L P (n + 1)).lag_pose = some (smootherOut w dt L P n) := by
  rw [smootherRun, smootherOut, update_lag]

theorem update_of_lag_some (s : Smoother) (q : LookTransform)
    (raw : LookTransform) (dt : ℝ) (hlag : s.lag_pose = some q) :
    (Smoother.update s none raw dt).1 =
      ⟨lerpV (1 - s.weight ^ dt) q.eye raw.eye,
        lerpV (1 - s.weight ^ dt) q.target raw.target, raw.up⟩ := by
  obtain ⟨w0, lag⟩ := s
  cases lag with
  | none => simp at hlag
  | some q2 =>
    obtain rfl : q2 = q := by simpa using hlag
    rfl

theorem lerpS_dist (t a b : ℝ) : |b - lerpS t a b| = |1 - t| * |b - a| := by
  rw [← abs_mul]
  congr 1
  simp [lerpS]
  ring

theorem vDist_comm (a b : Vec3) : vDist a b = vDist b a := by
  simp [vDist, abs_sub_comm]

theorem vDist_lerp (t : ℝ) (ht : |1 - t| = 1 - t) (a b : Vec3) :
    vDist b (lerpV t a b) = (1 - t) * vDist a b := by
  simp only [vDist, lerpV]
  rw [lerpS_dist, lerpS_dist, lerpS_dist, ht, abs_sub_comm b.x a.x,
    abs_sub_comm b.y a.y, abs_sub_comm b.z a.z]
  ring

/-- One smoothing step with lag pose `q` and constant raw pose `P`
contracts both the full pose distance and the eye/target distance to `P`
by the factor `w ^ dt`. -/
theorem update_dist (s : Smoother) (q P : LookTransform) (dt : ℝ)
    (hlag : s.lag_pose = some q) (hw : 0 ≤ s.weight) :
    poseDist (Smoother.update s none P dt).1 P = s.weight ^ dt * etDist q P ∧
    etDist (Smoother.update s none P dt).1 P = s.weight ^ dt * etDist q P := by
  have hc : (0 : ℝ) ≤ s.weight ^ dt := Real.rpow_nonneg hw dt
  have habs : |1 - (1 - s.weight ^ dt)| = 1 - (1 - s.weight ^ dt) := by
    rw [abs_of_nonneg] <;> linarith
  rw [update_of_lag_some s q P dt hlag]
  have het : etDist ⟨lerpV (1 - s.weight ^ dt) q.eye P.eye,
      lerpV (1 - s.weight ^ dt) q.target P.target, P.up⟩ P =
      s.weight ^ dt * etDist q P := by
    show vDist (lerpV (1 - s.weight ^ dt) q.eye P.eye) P.eye +
      vDist (lerpV (1 - s.weight ^ dt) q.target P.target) P.target = _
    rw [vDist_comm _ P.eye, vDist_comm _ P.target, vDist_lerp _ habs,
      vDist_lerp _ habs]
    have h1 : 1 - (1 - s.weight ^ dt) = s.weight ^ dt := by ring
    rw [h1, etDist]
    ring
  refine ⟨?_, het⟩
  show etDist _ P + vDist P.up P.up = _
  rw [vDist_self, add_zero, het]

theorem smootherOut_dist (w dt : ℝ) (L P : LookTransform) (hw : 0 ≤ w) :
    ∀ n : ℕ,
      poseDist (smootherOut w dt L P n) P = (w ^ dt) ^ n * (w ^ dt * etDist L P) ∧
      etDist (smootherOut w dt L P n) P = (w ^ dt) ^ n * (w ^ dt * etDist L P)
  | 0 => by
    have h := update_dist (smootherRun w dt L P 0) L P dt rfl
      (by rw [smootherRun_weight]; exact hw)
    rw [smootherRun_weight] at h
    simpa [smootherOut] using h
  | n + 1 => by
    have hprev := (smootherOut_dist w dt L P hw n).2
    have h := update_dist (smootherRun w dt L P (n + 1)) (smootherOut w dt L P n)
      P dt (smootherRun_lag w dt L P n)
      (by rw [smootherRun_weight]; exact hw)
    rw [smootherRun_weight] at h
    have h1 := h.1
    have h2 := h.2
    rw [hprev] at h1 h2
    constructor
    · rw [smootherOut, h1]; ring
    · rw [smootherOut, h2]; ring

/-- C1: the first `Smoother::update` call (no lag pose stored) returns the
raw pose `P` exactly, with no smoothing applied, and stores `P` as the new
lag pose. -/
theorem smoother_first_call_returns_raw (s : Smoother) (ov : Option ℝ)
    (P : LookTransform) (dt : ℝ) (hlag : s.lag_pose = none) (hdt : 0 < dt) :
    Smoother.update s ov P dt = (P, ⟨s.weight, some P⟩) := by
  obtain ⟨w0, lag⟩ := s
  obtain rfl : lag = none := hlag
  rfl

/-- Witness for C1 at a concrete fresh smoother, pose and time step. -/
theorem smoother_first_call_returns_raw_witness :
    (Smoother.new (9 / 10)).lag_pose = none ∧ (0 : ℝ) < 1 / 60 ∧
      Smoother.update (Smoother.new (9 / 10)) none
          ⟨⟨0, 0, 5⟩, ⟨0, 0, 0⟩, ⟨0, 1, 0⟩⟩ (1 / 60) =
        (⟨⟨0, 0, 5⟩, ⟨0, 0, 0⟩, ⟨0, 1, 0⟩⟩,
          ⟨9 / 10, some ⟨⟨0, 0, 5⟩, ⟨0, 0, 0⟩, ⟨0, 1, 0⟩⟩⟩) :=
  ⟨rfl, by norm_num,
    smoother_first_call_returns_raw (Smoother.new (9 / 10)) none
      ⟨⟨0, 0, 5⟩, ⟨0, 0, 0⟩, ⟨0, 1, 0⟩⟩ (1 / 60) rfl (by norm_num)⟩

/-- C2: feeding the same raw pose `P` repeatedly into the smoother with
fixed `dt > 0` and stored weight `0 < w < 1`, from a state whose lag pose
differs from `P` (in eye or target), makes the distance from the output
pose to `P` strictly decrease on every call, and the output comes within
any positive tolerance of `P` after finitely many calls. -/
theorem smoother_constant_input_converges (w dt : ℝ) (L P : LookTransform)
    (hw0 : 0 < w) (hw1 : w < 1) (hdt : 0 < dt) (hL : 0 < etDist L P) :
    (∀ n, poseDist (smootherOut w dt L P (n + 1)) P <
      poseDist (smootherOut w dt L P n) P) ∧
    ∀ τ : ℝ, 0 < τ → ∃ N, poseDist (smootherOut w dt L P N) P < τ := by
  have hc0 : 0 < w ^ dt := Real.rpow_pos_of_pos hw0 dt
  have hc1 : w ^ dt < 1 := Real.rpow_lt_one (le_of_lt hw0) hw1 hdt
  have hd : ∀ n, poseDist (smootherOut w dt L P n) P =
      (w ^ dt) ^ n * (w ^ dt * etDist L P) :=
    fun n => (smootherOut_dist w dt L P (le_of_lt hw0) n).1
  have hbase : 0 < w ^ dt * etDist L P := mul_pos hc0 hL
  constructor
  · intro n
    rw [hd n, hd (n + 1)]
    have hstep : (w ^ dt) ^ (n + 1) < (w ^ dt) ^ n := by
      rw [pow_succ]
      exact mul_lt_of_lt_one_right (pow_pos hc0 n) hc1
    exact mul_lt_mul_of_pos_right hstep hbase
  · intro τ hτ
    obtain ⟨N, hN⟩ := exists_pow_lt_of_lt_one (div_pos hτ hbase) hc1
    refine ⟨N, ?_⟩
    rw [hd N]
    calc (w ^ dt) ^ N * (w ^ dt * etDist L P)
        < τ / (w ^ dt * etDist L P) * (w ^ dt * etDist L P) :=
          mul_lt_mul_of_pos_right hN hbase
      _ = τ := div_mul_cancel₀ τ (ne_of_gt hbase)

/-- Witness for C2 at `w = 1/2`, `dt = 1` and concrete poses one unit
apart. -/
theorem smoother_constant_input_converges_witness :
    (0 : ℝ) < 1 / 2 ∧ (1 : ℝ) / 2 < 1 ∧ (0 : ℝ) < 1 ∧
      0 < etDist ⟨⟨1, 0, 0⟩, ⟨0, 0, 0⟩, ⟨0, 1, 0⟩⟩
          ⟨⟨0, 0, 0⟩, ⟨0, 0, 0⟩, ⟨0, 1, 0⟩⟩ ∧
      ((∀ n, poseDist (smootherOut (1 / 2) 1 ⟨⟨1, 0, 0⟩, ⟨0, 0, 0⟩, ⟨0, 1, 0⟩⟩
            ⟨⟨0, 0, 0⟩, ⟨0, 0, 0⟩, ⟨0, 1, 0⟩⟩ (n + 1))
            ⟨⟨0, 0, 0⟩, ⟨0, 0, 0⟩, ⟨0, 1, 0⟩⟩ <
          poseDist (smootherOut (1 / 2) 1 ⟨⟨1, 0, 0⟩, ⟨0, 0, 0⟩, ⟨0, 1, 0⟩⟩
            ⟨⟨0, 0, 0⟩, ⟨0, 0, 0⟩, ⟨0, 1, 0⟩⟩ n)
            ⟨⟨0, 0, 0⟩, ⟨0, 0, 0⟩, ⟨0, 1, 0⟩⟩) ∧
        ∀ τ : ℝ, 0 < τ → ∃ N,
          poseDist (smootherOut (1 / 2) 1 ⟨⟨1, 0, 0⟩, ⟨0, 0, 0⟩, ⟨0, 1, 0⟩⟩
            ⟨⟨0, 0, 0⟩, ⟨0, 0, 0⟩, ⟨0, 1, 0⟩⟩ N)
            ⟨⟨0, 0, 0⟩, ⟨0, 0, 0⟩, ⟨0, 1, 0⟩⟩ < τ) :=
  ⟨by norm_num, by norm_num, by norm_num, by norm_num [etDist, vDist],
    smoother_constant_input_converges (1 / 2) 1
      ⟨⟨1, 0, 0⟩, ⟨0, 0, 0⟩, ⟨0, 1, 0⟩⟩ ⟨⟨0, 0, 0⟩, ⟨0, 0, 0⟩, ⟨0, 1, 0⟩⟩
      (by norm_num) (by norm_num) (by norm_num) (by norm_num [etDist, vDist])⟩

/-- C6: with stored weight `0` (and no per-call override), every call of
`Smoother::update` — from any current state, so along any sequence of raw
poses and positive time steps — returns the raw input pose exactly and
updates the stored lag pose to that raw pose (and keeps the weight, so the
same holds at every later call of the sequence). -/
theorem smoother_weight_zero_identity (s : Smoother) (raw : LookTransform)
    (dt : ℝ) (hw : s.weight = 0) (hdt : 0 < dt) :
    Smoother.update s none raw dt = (raw, ⟨s.weight, some raw⟩) := by
  obtain ⟨w0, lag⟩ := s
  obtain rfl : w0 = 0 := hw
  cases lag with
  | none => rfl
  | some q =>
    have hz : (0 : ℝ) ^ dt = 0 := Real.zero_rpow (ne_of_gt hdt)
    have he : ∀ a b : Vec3, lerpV (1 - 0) a b = b := by
      intro a b
      simp [lerpV, lerpS]
    simp only [Smoother.update, Option.getD_none, hz, he]

/-- Witness for C6 at a concrete state with a stored lag pose differing
from the raw pose. -/
theorem smoother_weight_zero_identity_witness :
    (Smoother.mk 0 (some ⟨⟨1, 2, 3⟩, ⟨4, 5, 6⟩, ⟨0, 1, 0⟩⟩)).weight = 0 ∧
      (0 : ℝ) < 1 ∧
      Smoother.update (Smoother.mk 0 (some ⟨⟨1, 2, 3⟩, ⟨4, 5, 6⟩, ⟨0, 1, 0⟩⟩))
          none ⟨⟨7, 8, 9⟩, ⟨0, 0, 0⟩, ⟨0, 0, 1⟩⟩ 1 =
        (⟨⟨7, 8, 9⟩, ⟨0, 0, 0⟩, ⟨0, 0, 1⟩⟩,
          ⟨0, some ⟨⟨7, 8, 9⟩, ⟨0, 0, 0⟩, ⟨0, 0, 1⟩⟩⟩) :=
  ⟨rfl, by norm_num,
    smoother_weight_zero_identity
      (Smoother.mk 0 (some ⟨⟨1, 2, 3⟩, ⟨4, 5, 6⟩, ⟨0, 1, 0⟩⟩))
      ⟨⟨7, 8, 9⟩, ⟨0, 0, 0⟩, ⟨0, 0, 1⟩⟩ 1 rfl (by norm_num)⟩

theorem epsMargin_pos : 0 < epsMargin := by
  rw [epsMargin]; norm_num

theorem pitchBound_pos : 0 < pitchBound := by
  have h := Real.pi_gt_three
  rw [pitchBound, epsMargin]
  linarith

theorem pitchBound_lt_half_pi : pitchBound < π / 2 := by
  rw [pitchBound]
  linarith [epsMargin_pos]

theorem pitchBound_lt_pole : pitchBound < π / 2 - assertEps := by
  rw [pitchBound, epsMargin, assertEps]
  norm_num

theorem abs_clampPitch_le (p : ℝ) : |clampPitch p| ≤ pitchBound := by
  rw [abs_le, clampPitch]
  refine ⟨le_min (by linarith [pitchBound_pos]) (le_max_left _ _), min_le_left _ _⟩

theorem foldl_add_pitch_bound (ds : List ℝ) :
    ∀ a : LookAngles, |a.pitch| ≤ pitchBound →
      |(ds.foldl LookAngles.add_pitch a).pitch| ≤ pitchBound := by
  induction ds with
  | nil => exact fun a h => h
  | cons d ds ih => exact fun a _ => ih (a.add_pitch d) (abs_clampPitch_le _)

/-- C4: from every starting `LookAngles` value and along every sequence of
`add_pitch` deltas (however large), the pitch after each call stays
strictly inside `(-π/2, π/2)`, saturating at the `epsMargin` bound below
the pole. -/
theorem add_pitch_saturates (a : LookAngles) (d : ℝ) (ds : List ℝ) :
    |(ds.foldl LookAngles.add_pitch (a.add_pitch d)).pitch| ≤ pitchBound ∧
      |(ds.foldl LookAngles.add_pitch (a.add_pitch d)).pitch| < π / 2 := by
  have h := foldl_add_pitch_bound ds (a.add_pitch d) (abs_clampPitch_le _)
  exact ⟨h, lt_of_le_of_lt h pitchBound_lt_half_pi⟩

theorem controlStep_pitch_bound (dt : ℝ) (rx ry rz : Vec3)
    (st : Vec3 × LookAngles) (m : ControlMessage)
    (h : |st.2.pitch| ≤ pitchBound) :
    |(controlStep dt rx ry rz st m).2.pitch| ≤ pitchBound := by
  cases m with
  | Rotate delta => exact abs_clampPitch_le _
  | TranslateEye delta => exact h

theorem foldl_controlStep_pitch_bound (dt : ℝ) (rx ry rz : Vec3)
    (msgs : List ControlMessage) :
    ∀ st : Vec3 × LookAngles, |st.2.pitch| ≤ pitchBound →
      |((msgs.foldl (controlStep dt rx ry rz) st)).2.pitch| ≤ pitchBound := by
  induction msgs with
  | nil => exact fun st h => h
  | cons m ms ih =>
    exact fun st h => ih _ (controlStep_pitch_bound dt rx ry rz st m h)

theorem foldl_controlStep_not_looking_up (dt : ℝ) (rx ry rz : Vec3)
    (msgs : List ControlMessage) (st : Vec3 × LookAngles)
    (h : |st.2.pitch| ≤ pitchBound) :
    ((msgs.foldl (controlStep dt rx ry rz) st)).2.not_looking_up :=
  lt_of_le_of_lt (foldl_controlStep_pitch_bound dt rx ry rz msgs st h)
    pitchBound_lt_pole

theorem controlState_not_looking_up (dt : ℝ) (msgs : List ControlMessage)
    (eye0 : Vec3) (lv : Vec3) :
    (controlState dt msgs eye0 lv).2.not_looking_up :=
  foldl_controlStep_not_looking_up _ _ _ _ _ _ (abs_clampPitch_le _)

/-- C5: in `control_system`, once the look angles are rebuilt by
`from_vector` from the current look direction and every queued message is
applied (`Rotate` goes through `add_yaw`/`add_pitch`, which clamp the
pitch), the `assert_not_looking_up` check always passes — the
fatal-assertion branch is unreachable for any sequence of rotate deltas,
any time step and any look direction. -/
theorem control_system_assert_unreachable (dt : ℝ)
    (msgs : List ControlMessage) (t : LookTransform) (v : Vec3) :
    ((msgs.foldl
        (controlStep dt (rotY (LookAngles.from_vector v).get_yaw Vec3.unitX)
          (rotY (LookAngles.from_vector v).get_yaw Vec3.unitY)
          (rotY (LookAngles.from_vector v).get_yaw Vec3.unitZ))
        (t.eye, LookAngles.from_vector v))).2.not_looking_up :=
  foldl_controlStep_not_looking_up _ _ _ _ _ _ (abs_clampPitch_le _)

theorem look_direction_of_ne (t : LookTransform) (h : t.eye ≠ t.target) :
    t.look_direction =
      some ((t.target - t.eye).length⁻¹ • (t.target - t.eye)) := by
  rw [LookTransform.look_direction, if_neg]
  exact fun he => h he.symm

theorem Vec3.length_nonneg (v : Vec3) : 0 ≤ v.length :=
  Real.sqrt_nonneg _

theorem Vec3.length_smul (c : ℝ) (v : Vec3) :
    (c • v).length = |c| * v.length := by
  simp only [Vec3.smul_def, Vec3.length]
  rw [show (c * v.x) ^ 2 + (c * v.y) ^ 2 + (c * v.z) ^ 2 =
      c ^ 2 * (v.x ^ 2 + v.y ^ 2 + v.z ^ 2) from by ring]
  rw [Real.sqrt_mul (sq_nonneg c), Real.sqrt_sq_eq_abs]

theorem unit_vector_length (a : LookAngles) : a.unit_vector.length = 1 := by
  simp only [LookAngles.unit_vector, Vec3.length]
  have h1 := Real.sin_sq_add_cos_sq a.yaw
  have h2 := Real.sin_sq_add_cos_sq a.pitch
  rw [show (-(Real.sin a.yaw * Real.cos a.pitch)) ^ 2 + Real.sin a.pitch ^ 2 +
      (-(Real.cos a.yaw * Real.cos a.pitch)) ^ 2 = 1 from by
    linear_combination Real.cos a.pitch ^ 2 * h1 + h2]
  exact Real.sqrt_one

theorem vec_add_sub_cancel (a b : Vec3) : a + b - a = b := by
  simp only [Vec3.add_def, Vec3.sub_def, Vec3.ext_iff]
  refine ⟨by ring, by ring, by ring⟩

theorem foldl_controlStep_eye (dt : ℝ) (rx ry rz : Vec3) :
    ∀ msgs : List ControlMessage,
      (∀ m ∈ msgs, ∃ δ, m = ControlMessage.Rotate δ) →
      ∀ st : Vec3 × LookAngles,
        ((msgs.foldl (controlStep dt rx ry rz) st)).1 = st.1
  | [], _, _ => rfl
  | m :: ms, hrot, st => by
    obtain ⟨δ, rfl⟩ := hrot m (List.mem_cons_self m ms)
    rw [List.foldl_cons,
      foldl_controlStep_eye dt rx ry rz ms
        (fun m2 hm => hrot m2 (List.mem_cons_of_mem _ hm))]
    rfl

theorem controlState_eye (dt : ℝ) (msgs : List ControlMessage)
    (eye0 : Vec3) (lv : Vec3)
    (hrot : ∀ m ∈ msgs, ∃ δ, m = ControlMessage.Rotate δ) :
    (controlState dt msgs eye0 lv).1 = eye0 :=
  foldl_controlStep_eye dt _ _ _ msgs hrot _

theorem controlBody_of_some (dt : ℝ) (msgs : List ControlMessage)
    (t : LookTransform) (lv : Vec3) (hld : t.look_direction = some lv) :
    controlBody dt msgs t =
      some ⟨(controlState dt msgs t.eye lv).1,
        (controlState dt msgs t.eye lv).1 +
          LookTransform.radius
              ⟨(controlState dt msgs t.eye lv).1, t.target, t.up⟩ •
            (controlState dt msgs t.eye lv).2.unit_vector,
        t.up⟩ := by
  unfold controlBody
  rw [hld]
  dsimp only
  rw [if_pos (controlState_not_looking_up dt msgs t.eye lv)]

/-- C8: whenever the pose invariant `eye ≠ target` holds,
`look_direction()` returns `Some`, so the `unwrap` in `control_system`
cannot panic, and the per-camera body of `control_system` is total
(returns a pose) for every message sequence and time step. -/
theorem control_system_total (dt : ℝ) (msgs : List ControlMessage)
    (t : LookTransform) (h : t.eye ≠ t.target) :
    t.look_direction.isSome = true ∧ (controlBody dt msgs t).isSome = true := by
  have hld := look_direction_of_ne t h
  refine ⟨by rw [hld]; rfl, ?_⟩
  rw [controlBody_of_some dt msgs t _ hld]
  rfl

/-- Witness for C8 at a concrete pose with `eye ≠ target`. -/
theorem control_system_total_witness :
    (⟨⟨0, 0, 0⟩, ⟨0, 0, 1⟩, ⟨0, 1, 0⟩⟩ : LookTransform).eye ≠
        (⟨⟨0, 0, 0⟩, ⟨0, 0, 1⟩, ⟨0, 1, 0⟩⟩ : LookTransform).target ∧
      ((⟨⟨0, 0, 0⟩, ⟨0, 0, 1⟩, ⟨0, 1, 0⟩⟩ : LookTransform).look_direction.isSome
          = true ∧
        (controlBody 1 [] ⟨⟨0, 0, 0⟩, ⟨0, 0, 1⟩, ⟨0, 1, 0⟩⟩).isSome = true) :=
  ⟨by simp only [Vec3.ext_iff]; norm_num,
    control_system_total 1 [] ⟨⟨0, 0, 0⟩, ⟨0, 0, 1⟩, ⟨0, 1, 0⟩⟩
      (by simp only [Vec3.ext_iff]; norm_num)⟩

/-- C9: a `control_system` tick whose message stream contains only
`Rotate` messages leaves the eye and up vector unchanged — only the
target is reassigned — and the final target assignment places the target
at distance `radius()` from the eye, so the eye-to-target distance
(computed after translation, here equal to the original) is preserved. -/
theorem control_rotate_only_preserves_eye_up_radius (dt : ℝ)
    (msgs : List ControlMessage) (t : LookTransform)
    (hrot : ∀ m ∈ msgs, ∃ δ, m = ControlMessage.Rotate δ)
    (h : t.eye ≠ t.target) :
    ∃ t2, controlBody dt msgs t = some t2 ∧ t2.eye = t.eye ∧ t2.up = t.up ∧
      (t2.target - t2.eye).length = (t.target - t.eye).length := by
  have hld := look_direction_of_ne t h
  have heye := controlState_eye dt msgs t.eye
    ((t.target - t.eye).length⁻¹ • (t.target - t.eye)) hrot
  refine ⟨_, controlBody_of_some dt msgs t _ hld, heye, rfl, ?_⟩
  dsimp only
  rw [vec_add_sub_cancel, Vec3.length_smul, unit_vector_length, mul_one,
    LookTransform.radius]
  dsimp only
  rw [abs_of_nonneg (Vec3.length_nonneg _), heye]

/-- Witness for C9 at a concrete pose and a single rotate message. -/
theorem control_rotate_only_preserves_eye_up_radius_witness :
    (∀ m ∈ [ControlMessage.Rotate ⟨1, 2⟩], ∃ δ, m = ControlMessage.Rotate δ) ∧
      (⟨⟨0, 0, 0⟩, ⟨0, 0, 1⟩, ⟨0, 1, 0⟩⟩ : LookTransform).eye ≠
        (⟨⟨0, 0, 0⟩, ⟨0, 0, 1⟩, ⟨0, 1, 0⟩⟩ : LookTransform).target ∧
      ∃ t2, controlBody 1 [ControlMessage.Rotate ⟨1, 2⟩]
            ⟨⟨0, 0, 0⟩, ⟨0, 0, 1⟩, ⟨0, 1, 0⟩⟩ = some t2 ∧
        t2.eye = (⟨⟨0, 0, 0⟩, ⟨0, 0, 1⟩, ⟨0, 1, 0⟩⟩ : LookTransform).eye ∧
        t2.up = (⟨⟨0, 0, 0⟩, ⟨0, 0, 1⟩, ⟨0, 1, 0⟩⟩ : LookTransform).up ∧
        (t2.target - t2.eye).length =
          ((⟨⟨0, 0, 0⟩, ⟨0, 0, 1⟩, ⟨0, 1, 0⟩⟩ : LookTransform).target -
            (⟨⟨0, 0, 0⟩, ⟨0, 0, 1⟩, ⟨0, 1, 0⟩⟩ : LookTransform).eye).length :=
  ⟨fun m hm => ⟨⟨1, 2⟩, by simpa using hm⟩,
    by simp only [Vec3.ext_iff]; norm_num,
    control_rotate_only_preserves_eye_up_radius 1 [ControlMessage.Rotate ⟨1, 2⟩]
      ⟨⟨0, 0, 0⟩, ⟨0, 0, 1⟩, ⟨0, 1, 0⟩⟩
      (fun m hm => ⟨⟨1, 2⟩, by simpa using hm⟩)
      (by simp only [Vec3.ext_iff]; norm_num)⟩

theorem find?_enabled_append (pre : List FpsCameraController)
    (hpre : ∀ p ∈ pre, p.enabled = false) (c : FpsCameraController)
    (hc : c.enabled = true) (suf : List FpsCameraController) :
    (pre ++ c :: suf).find? (fun x => x.enabled) = some c := by
  induction pre with
  | nil => exact List.find?_cons_of_pos _ hc
  | cons p ps ih =>
    rw [List.cons_append, List.find?_cons_of_neg]
    · exact ih fun q hq => hpre q (List.mem_cons_of_mem _ hq)
    · simp [hpre p (List.mem_cons_self p ps)]

theorem control_system_none_enabled (dt : ℝ) (msgs : List ControlMessage) :
    ∀ cams : List (FpsCameraController × LookTransform),
      (∀ p ∈ cams, p.1.enabled = false) →
      control_system dt msgs cams = some cams
  | [], _ => rfl
  | (c, t) :: rest, h => by
    have hc : c.enabled = false := h (c, t) (List.mem_cons_self _ _)
    rw [control_system, if_neg (by simp [hc]),
      control_system_none_enabled dt msgs rest
        (fun p hp => h p (List.mem_cons_of_mem _ hp))]
    rfl

theorem control_system_first_enabled (dt : ℝ) (msgs : List ControlMessage)
    (c : FpsCameraController) (t : LookTransform) (hc : c.enabled = true) :
    ∀ pre : List (FpsCameraController × LookTransform),
      (∀ p ∈ pre, p.1.enabled = false) →
      ∀ suf : List (FpsCameraController × LookTransform),
        control_system dt msgs (pre ++ (c, t) :: suf) =
          (controlBody dt msgs t).map fun t2 => pre ++ (c, t2) :: suf
  | [], _, suf => by
    rw [List.nil_append, control_system, if_pos (by simp [hc])]
    rfl
  | (c0, t0) :: ps, hpre, suf => by
    have hc0 : c0.enabled = false := hpre (c0, t0) (List.mem_cons_self _ _)
    rw [List.cons_append, control_system, if_neg (by simp [hc0]),
      control_system_first_enabled dt msgs c t hc ps
        (fun p hp => hpre p (List.mem_cons_of_mem _ hp)) suf,
      Option.map_map]
    rfl

theorem default_input_map_none_enabled (cs : List FpsCameraController)
    (grab : CursorGrabMode) (evs : List Vec2) (keys : KeyCode → Bool)
    (h : ∀ p ∈ cs, p.enabled = false) :
    default_input_map cs grab evs keys = [] := by
  have hf : cs.find? (fun c => c.enabled) = none :=
    List.find?_eq_none.mpr fun x hx => by simp [h x hx]
  rw [default_input_map, hf]

/-- C7: both `default_input_map` and `control_system` act on at most one
controller — the first enabled one in iteration order (any disabled
prefix is skipped, any suffix is left alone and does not influence the
emitted messages) — and when no controller is enabled, `default_input_map`
emits no messages and `control_system` leaves every `LookTransform`
unchanged. -/
theorem first_enabled_controller_selected (dt : ℝ)
    (msgs : List ControlMessage) (grab : CursorGrabMode) (evs : List Vec2)
    (keys : KeyCode → Bool) (pre suf : List (FpsCameraController × LookTransform))
    (c : FpsCameraController) (t : LookTransform)
    (hpre : ∀ p ∈ pre, p.1.enabled = false) (hc : c.enabled = true) :
    (control_system dt msgs (pre ++ (c, t) :: suf) =
      (controlBody dt msgs t).map fun t2 => pre ++ (c, t2) :: suf) ∧
    default_input_map (pre.map Prod.fst ++ c :: suf.map Prod.fst) grab evs keys
      = default_input_map [c] grab evs keys ∧
    ∀ cams : List (FpsCameraController × LookTransform),
      (∀ p ∈ cams, p.1.enabled = false) →
        control_system dt msgs cams = some cams ∧
        default_input_map (cams.map Prod.fst) grab evs keys = [] := by
  refine ⟨control_system_first_enabled dt msgs c t hc pre hpre suf, ?_, ?_⟩
  · have hpre2 : ∀ p ∈ pre.map Prod.fst, p.enabled = false := by
      intro p hp
      obtain ⟨q, hq, rfl⟩ := List.mem_map.mp hp
      exact hpre q hq
    rw [default_input_map, default_input_map,
      find?_enabled_append (pre.map Prod.fst) hpre2 c hc (suf.map Prod.fst),
      List.find?_cons_of_pos _ hc]
  · intro cams hcams
    refine ⟨control_system_none_enabled dt msgs cams hcams, ?_⟩
    refine default_input_map_none_enabled _ _ _ _ ?_
    intro p hp
    obtain ⟨q, hq, rfl⟩ := List.mem_map.mp hp
    exact hcams q hq

/-- A concrete disabled controller, used by concrete instantiations. -/
def camOff : FpsCameraController :=
  ⟨false, ⟨1, 1⟩, 1, 0, false, CursorToggleMode.flip⟩

/-- A concrete enabled controller, used by concrete instantiations. -/
def camOn : FpsCameraController :=
  ⟨true, ⟨1, 1⟩, 2, 0, true, CursorToggleMode.trigger⟩

/-- A concrete pose, used by concrete instantiations. -/
def tfmA : LookTransform := ⟨⟨0, 0, 0⟩, ⟨0, 0, 1⟩, ⟨0, 1, 0⟩⟩

/-- A second concrete pose, used by concrete instantiations. -/
def tfmB : LookTransform := ⟨⟨0, 0, 2⟩, ⟨0, 0, 3⟩, ⟨0, 1, 0⟩⟩

/-- Witness for C7: one disabled camera followed by one enabled camera. -/
theorem first_enabled_controller_selected_witness :
    (∀ p ∈ [(camOff, tfmA)], p.1.enabled = false) ∧ camOn.enabled = true ∧
    ((control_system 1 [] ([(camOff, tfmA)] ++ (camOn, tfmB) :: []) =
        (controlBody 1 [] tfmB).map fun t2 =>
          [(camOff, tfmA)] ++ (camOn, t2) :: []) ∧
      default_input_map
          ([(camOff, tfmA)].map Prod.fst ++ camOn ::
            ([] : List (FpsCameraController × LookTransform)).map Prod.fst)
          CursorGrabMode.locked [] (fun _ => false) =
        default_input_map [camOn] CursorGrabMode.locked [] (fun _ => false) ∧
      ∀ cams : List (FpsCameraController × LookTransform),
        (∀ p ∈ cams, p.1.enabled = false) →
          control_system 1 [] cams = some cams ∧
          default_input_map (cams.map Prod.fst) CursorGrabMode.locked []
            (fun _ => false) = []) :=
  ⟨fun p hp => by rw [List.mem_singleton] at hp; subst hp; rfl,
    rfl,
    first_enabled_controller_selected 1 [] CursorGrabMode.locked []
      (fun _ => false) [(camOff, tfmA)] [] camOn tfmB
      (fun p hp => by rw [List.mem_singleton] at hp; subst hp; rfl)
      rfl⟩

/-- C10: while the cursor grab mode is not `Locked`, the accumulated
cursor delta in `default_input_map` is zero whatever the pending mouse
motions are, so two runs that differ only in the mouse-motion input emit
identical messages (in particular the identical `Rotate` message). -/
theorem unlocked_cursor_ignores_mouse (cs : List FpsCameraController)
    (grab : CursorGrabMode) (evs1 evs2 : List Vec2) (keys : KeyCode → Bool)
    (h : grab ≠ CursorGrabMode.locked) :
    default_input_map cs grab evs1 keys = default_input_map cs grab evs2 keys := by
  rw [default_input_map, default_input_map]
  cases cs.find? (fun c => c.enabled) with
  | none => rfl
  | some c => rw [if_neg h, if_neg h]

/-- Witness for C10: unlocked cursor, two different mouse-motion streams. -/
theorem unlocked_cursor_ignores_mouse_witness :
    CursorGrabMode.noGrab ≠ CursorGrabMode.locked ∧
      default_input_map [⟨true, ⟨1, 1⟩, 2, 0, true, CursorToggleMode.trigger⟩]
          CursorGrabMode.noGrab [⟨5, 7⟩] (fun _ => false) =
        default_input_map [⟨true, ⟨1, 1⟩, 2, 0, true, CursorToggleMode.trigger⟩]
          CursorGrabMode.noGrab [] (fun _ => false) :=
  ⟨by decide,
    unlocked_cursor_ignores_mouse
      [⟨true, ⟨1, 1⟩, 2, 0, true, CursorToggleMode.trigger⟩]
      CursorGrabMode.noGrab [⟨5, 7⟩] [] (fun _ => false) (by decide)⟩

/-- The vertical gap from the poles inside which the round-trip law is
stated: `poleGap = 1 - sin pitchBound`, so `|v.y| < 1 - poleGap` puts the
pitch of `v` strictly inside the clamp range. -/
noncomputable def poleGap : ℝ := 1 - Real.sin pitchBound

theorem arcsin_within_pitchBound (y : ℝ) (hy : |y| < Real.sin pitchBound) :
    -pitchBound ≤ Real.arcsin y ∧ Real.arcsin y ≤ pitchBound := by
  obtain ⟨hyl, hyr⟩ := abs_lt.mp hy
  have hs1 : Real.sin pitchBound ≤ 1 := Real.sin_le_one _
  have hsm1 : -1 ≤ Real.sin pitchBound := Real.neg_one_le_sin _
  have hy1 : -1 ≤ y := by linarith
  have hy2 : y ≤ 1 := by linarith
  have hBl : -(π / 2) ≤ pitchBound := by linarith [pitchBound_pos, Real.pi_pos]
  have hBr : pitchBound ≤ π / 2 := le_of_lt pitchBound_lt_half_pi
  have hup : Real.arcsin y < pitchBound := by
    have h := Real.strictMonoOn_arcsin (Set.mem_Icc.mpr ⟨hy1, hy2⟩)
      (Set.mem_Icc.mpr ⟨hsm1, hs1⟩) hyr
    rwa [Real.arcsin_sin hBl hBr] at h
  have hlo : -pitchBound < Real.arcsin y := by
    have h := Real.strictMonoOn_arcsin
      (Set.mem_Icc.mpr ⟨by linarith, by linarith⟩)
      (Set.mem_Icc.mpr ⟨hy1, hy2⟩) hyl
    rwa [show -Real.sin pitchBound = Real.sin (-pitchBound) from
        (Real.sin_neg pitchBound).symm,
      Real.arcsin_sin (by linarith) (by linarith)] at h
  exact ⟨le_of_lt hlo, le_of_lt hup⟩

theorem clampPitch_of_mem (p : ℝ) (h1 : -pitchBound ≤ p)
    (h2 : p ≤ pitchBound) : clampPitch p = p := by
  rw [clampPitch, max_eq_right h1, min_eq_right h2]

/-- C3: for every unit direction `v` whose `y` component keeps the pitch
inside the clamp range (`|v.y| < 1 - poleGap`, i.e. away from the poles),
`from_vector(v).unit_vector()` reconstructs `v` — exactly, in the
real-number model of the floating-point round-trip law. -/
theorem from_vector_unit_vector_roundtrip (v : Vec3)
    (hunit : v.x ^ 2 + v.y ^ 2 + v.z ^ 2 = 1) (hy : |v.y| < 1 - poleGap) :
    (LookAngles.from_vector v).unit_vector = v := by
  have hy' : |v.y| < Real.sin pitchBound := by rw [poleGap] at hy; linarith
  have hs1 : Real.sin pitchBound ≤ 1 := Real.sin_le_one _
  have hy1 : |v.y| < 1 := lt_of_lt_of_le hy' hs1
  obtain ⟨hyl, hyr⟩ := abs_lt.mp hy1
  have hlen : v.length = 1 := by rw [Vec3.length, hunit]; exact Real.sqrt_one
  obtain ⟨hb1, hb2⟩ := arcsin_within_pitchBound v.y hy'
  have hpc : clampPitch (Real.arcsin (v.y / v.length)) = Real.arcsin v.y := by
    rw [hlen, div_one]
    exact clampPitch_of_mem _ hb1 hb2
  have hxz : v.x ^ 2 + v.z ^ 2 = 1 - v.y ^ 2 := by linarith
  have hy2 : v.y ^ 2 < 1 := by nlinarith
  have hrpos : 0 < Real.sqrt (v.x ^ 2 + v.z ^ 2) :=
    Real.sqrt_pos.mpr (by rw [hxz]; linarith)
  have hsp : Real.sin (Real.arcsin v.y) = v.y :=
    Real.sin_arcsin (le_of_lt hyl) (le_of_lt hyr)
  have hcp : Real.cos (Real.arcsin v.y) = Real.sqrt (v.x ^ 2 + v.z ^ 2) := by
    rw [Real.cos_arcsin, ← hxz]
  have hznz : (⟨-v.z, -v.x⟩ : ℂ) ≠ 0 := by
    intro h0
    rw [Complex.ext_iff] at h0
    have hzc : v.z = 0 := by have := h0.1; simpa using this
    have hxc : v.x = 0 := by have := h0.2; simpa using this
    rw [hxc, hzc] at hxz
    nlinarith
  have habs : Complex.abs ⟨-v.z, -v.x⟩ = Real.sqrt (v.x ^ 2 + v.z ^ 2) := by
    rw [Complex.abs_apply, Complex.normSq_mk]
    rw [show -v.z * -v.z + -v.x * -v.x = v.x ^ 2 + v.z ^ 2 from by ring]
  have hcy : Real.cos (atan2 (-v.x) (-v.z)) =
      -v.z / Real.sqrt (v.x ^ 2 + v.z ^ 2) := by
    rw [atan2, Complex.cos_arg hznz, habs]
  have hsy : Real.sin (atan2 (-v.x) (-v.z)) =
      -v.x / Real.sqrt (v.x ^ 2 + v.z ^ 2) := by
    rw [atan2, Complex.sin_arg, habs]
  simp only [LookAngles.unit_vector, LookAngles.from_vector]
  rw [hpc, Vec3.ext_iff]
  refine ⟨?_, ?_, ?_⟩
  · show -(Real.sin (atan2 (-v.x) (-v.z)) * Real.cos (Real.arcsin v.y)) = v.x
    rw [hsy, hcp, div_mul_cancel₀ _ (ne_of_gt hrpos)]
    ring
  · exact hsp
  · show -(Real.cos (atan2 (-v.x) (-v.z)) * Real.cos (Real.arcsin v.y)) = v.z
    rw [hcy, hcp, div_mul_cancel₀ _ (ne_of_gt hrpos)]
    ring

/-- Witness for C3 at the unit vector pointing along `-Z`. -/
theorem from_vector_unit_vector_roundtrip_witness :
    (⟨0, 0, -1⟩ : Vec3).x ^ 2 + (⟨0, 0, -1⟩ : Vec3).y ^ 2 +
        (⟨0, 0, -1⟩ : Vec3).z ^ 2 = 1 ∧
      |(⟨0, 0, -1⟩ : Vec3).y| < 1 - poleGap ∧
      (LookAngles.from_vector ⟨0, 0, -1⟩).unit_vector = ⟨0, 0, -1⟩ := by
  have hsinpos : 0 < Real.sin pitchBound :=
    Real.sin_pos_of_pos_of_lt_pi pitchBound_pos
      (by linarith [pitchBound_lt_half_pi, Real.pi_pos])
  have hy : |(⟨0, 0, -1⟩ : Vec3).y| < 1 - poleGap := by
    show |(0 : ℝ)| < 1 - poleGap
    rw [abs_zero, poleGap]
    linarith
  exact ⟨by norm_num, hy,
    from_vector_unit_vector_roundtrip ⟨0, 0, -1⟩ (by norm_num) hy⟩
